import Mathlib

/-!
Shallow embedding of the scintellometry VLBI io core, with proofs of its
specified properties.  The definitions mirror, function by function:

  - src/scintellometry/io/mark4/payload.py (track reordering, look-up
    tables, the 8-channel / 2-bit / fanout-4 payload codec),
  - src/scintellometry/io/vlbi_helpers.py (bit-field parsers and setters,
    header parser tables, frame-rate inference),
  - src/scintellometry/io/vdif/header.py (VDIFHeader.fromfile and
    VDIFHeader.set_time),
  - src/scintellometry/io/vdif/frame.py (VDIFFrameSet.fromfile).

Machine words are natural numbers with explicit bounds where 32- or 64-bit
width matters; numpy arrays are index functions; sample values are exact
rationals; Python exceptions are an explicit result type.
-/

/-! ### Python-style results -/

/-- Exceptions raised by the modelled code paths. -/
inductive PyErr where
  /-- EOFError: a reader returned fewer bytes than requested. -/
  | eofError
  /-- AssertionError: a failed assert statement. -/
  | assertionError
  /-- ValueError raised by make_setter: the value exceeds the bit width. -/
  | fieldOverflow
  /-- TypeError from int(None): no value and no default given. -/
  | typeError
  /-- ValueError of get_time/set_time: the frame rate is not derivable. -/
  | missingFrameRate
  /-- IOError of VDIFFrameSet.fromfile: requested thread frames missing. -/
  | incompleteFrameSet
deriving DecidableEq

/-- Result of a Python call: a value, or the exception raised. -/
inductive PyResult (α : Type) where
  | ok : α → PyResult α
  | error : PyErr → PyResult α
deriving DecidableEq

/-! ### Track reordering (mark4/payload.py, little-endian branch) -/

/-- Function reorder32 of payload.py lines 30-33 (little-endian hosts). -/
def reorder32 (x : ℕ) : ℕ :=
  (x &&& 0xAA55AA55) ||| ((x &&& 0x55005500) >>> 7) ||| ((x &&& 0x00AA00AA) <<< 7)

/-- Function reorder64 of payload.py lines 37-40 (little-endian hosts). -/
def reorder64 (x : ℕ) : ℕ :=
  (x &&& 0xAA55AA55AA55AA55) ||| ((x &&& 0x5500550055005500) >>> 7) |||
    ((x &&& 0x00AA00AA00AA00AA) <<< 7)

/-- Proof device: the bit permutation carried out by reorder64 (on indices
below 64) and reorder32 (below 32).  Within every 16-bit group, bits
1, 3, 5, 7 swap with bits 8, 10, 12, 14; all other bits stay in place. -/
def reorderPerm (i : ℕ) : ℕ :=
  if i % 16 = 1 ∨ i % 16 = 3 ∨ i % 16 = 5 ∨ i % 16 = 7 then i + 7
  else if i % 16 = 8 ∨ i % 16 = 10 ∨ i % 16 = 12 ∨ i % 16 = 14 then i - 7
  else i

/-! ### Payload look-up tables and the (8, 2, 4) codec (mark4/payload.py) -/

/-- Constant OPTIMAL_2BIT_HIGH = 3.3359 (vlbi_helpers.py line 7). -/
def OPTIMAL_2BIT_HIGH : ℚ := 3.3359

/-- Array lut4level of init_luts (payload.py lines 62-63), as a function
from the 2-bit index. -/
def lut4level : ℕ → ℚ
  | 0 => -OPTIMAL_2BIT_HIGH
  | 1 => 1
  | 2 => -1
  | 3 => OPTIMAL_2BIT_HIGH
  | _ => 0

/-- Table lut2bit1 of init_luts (payload.py lines 71-74): measurement i of
byte b, with the sign bit at position 2i and the magnitude bit at 2i+1. -/
def lut2bit1 (b i : ℕ) : ℚ :=
  lut4level (((b >>> (2 * i)) &&& 1) + ((b >>> (2 * i + 1)) &&& 1) * 2)

/-- Channel permutation [0, 2, 1, 3, 4, 6, 5, 7] used both by
decode_8chan_2bit_fanout4 (payload.py line 100) and by
encode_8chan_2bit_fanout4 (line 118). -/
def reorder_channels : ℕ → ℕ
  | 0 => 0 | 1 => 2 | 2 => 1 | 3 => 3 | 4 => 4 | 5 => 6 | 6 => 5 | 7 => 7
  | n + 8 => n + 8

/-- Modelled from the spec: encode_2bit_real_base is imported from
scintellometry.io.vlbi_base (payload.py line 14), a module that is not in
the sources.  Spec section 4.6: sample values are quantized to the nearest
of the four levels -H, -1, +1, +H (H = OPTIMAL_2BIT_HIGH), and the result
is the 2-bit level index in increasing level order
(0 is -H, 1 is -1, 2 is +1, 3 is +H) - the convention under which the
reorder_bits permutation [0, 2, 1, 3] applied by encode_8chan_2bit_fanout4
matches the lut4level order -H, +1, -1, +H used in decoding. -/
def encode_2bit_real_base (v : ℚ) : ℕ :=
  if v < -((1 + OPTIMAL_2BIT_HIGH) / 2) then 0
  else if v < 0 then 1
  else if v < (1 + OPTIMAL_2BIT_HIGH) / 2 then 2
  else 3

/-- Array reorder_bits = [0, 2, 1, 3] of encode_8chan_2bit_fanout4
(payload.py lines 121-122), as a function. -/
def reorder_bits : ℕ → ℕ
  | 0 => 0 | 1 => 2 | 2 => 1 | 3 => 3 | n + 4 => n + 4

/-- One byte produced by encode_8chan_2bit_fanout4 for word w, byte lane c:
the reshape and transpose of payload.py line 119 route samples
x[4w+k][reorder_channels c], k = 0..3, into the byte; each is quantized,
renumbered by reorder_bits, shifted left by [0, 2, 4, 6] (line 123) and
or-reduced (line 124). -/
def encByte (x : ℕ → ℕ → ℚ) (w c : ℕ) : ℕ :=
  (reorder_bits (encode_2bit_real_base (x (4 * w) (reorder_channels c))) <<< 0) |||
    (reorder_bits (encode_2bit_real_base (x (4 * w + 1) (reorder_channels c))) <<< 2) |||
    (reorder_bits (encode_2bit_real_base (x (4 * w + 2) (reorder_channels c))) <<< 4) |||
    (reorder_bits (encode_2bit_real_base (x (4 * w + 3) (reorder_channels c))) <<< 6)

/-- The uint64 view of the eight bytes of word w (payload.py line 124):
on a little-endian host byte lane c sits at bit 8c. -/
def encWord (x : ℕ → ℕ → ℚ) (w : ℕ) : ℕ :=
  encByte x w 0 + 2 ^ 8 * encByte x w 1 + 2 ^ 16 * encByte x w 2 + 2 ^ 24 * encByte x w 3 +
    2 ^ 32 * encByte x w 4 + 2 ^ 40 * encByte x w 5 + 2 ^ 48 * encByte x w 6 +
    2 ^ 56 * encByte x w 7

/-- Function encode_8chan_2bit_fanout4 (payload.py lines 116-125).  The
data array of shape (4n, 8) is an index function (sample, channel); the
result maps a word index w to the 64-bit output word. -/
def encode_8chan_2bit_fanout4 (x : ℕ → ℕ → ℚ) (w : ℕ) : ℕ :=
  reorder64 (encWord x w)

/-- Function decode_8chan_2bit_fanout4 (payload.py lines 94-106).  The
words array is an index function; the result maps sample index t and
channel c of the (4n, 8) output array to its value: after reorder64, the
uint8 view and the reshape of line 98 put byte lane reorder_channels c of
word t/4 in channel c (line 100), and the lut2bit1 take, reshape and
transposes of line 106 make measurement t mod 4 of that byte the sample. -/
def decode_8chan_2bit_fanout4 (words : ℕ → ℕ) (t c : ℕ) : ℚ :=
  lut2bit1 ((reorder64 (words (t / 4)) >>> (8 * reorder_channels c)) &&& 255) (t % 4)

/-- The four quantization levels of the 2-bit codec. -/
def isLevel (v : ℚ) : Prop :=
  v = -OPTIMAL_2BIT_HIGH ∨ v = -1 ∨ v = 1 ∨ v = OPTIMAL_2BIT_HIGH

/-! ### Bit-field engine (vlbi_helpers.py) -/

/-- Value returned by a header field parser: a Python bool for fields of
width 1, an unsigned integer for all other widths. -/
inductive FieldValue where
  | bool : Bool → FieldValue
  | int : ℕ → FieldValue
deriving DecidableEq

/-- Function make_parser of vlbi_helpers.py lines 12-24 (the identifier is
renamed because the exact source spelling is not available here).  A
width-1 field is wrapped in bool(); a width-32 field returns the whole
word (the source asserts bit_index == 0 there); otherwise the word is
shifted and masked (the source special-cases bit_index == 0 by skipping
the shift, which changes nothing). -/
def makeParser (word_index bit_index bit_length : ℕ) (words : List ℕ) : FieldValue :=
  if bit_length = 1 then .bool (((words.getD word_index 0 >>> bit_index) &&& 1) != 0)
  else if bit_length = 32 then .int (words.getD word_index 0)
  else .int ((words.getD word_index 0 >>> bit_index) &&& ((1 <<< bit_length) - 1))

/-- Function make_setter of vlbi_helpers.py lines 27-44.  A None value
falls back to the default when one exists; int(None) without a default is
a TypeError.  A value with any bit above the field width raises the
ValueError of line 36 (fieldOverflow) and no word vector is produced.
Otherwise the field bits of word word_index are zeroed (or then xor, line
40) and the value is or-ed in; the word vector is rebuilt as
words[:word_index] + (word,) + words[word_index+1:] (callers always pass
word_index < len(words), so the getD default is never taken). -/
def make_setter (word_index bit_index bit_length : ℕ) (default : Option ℕ)
    (words : List ℕ) (value : Option ℕ) : PyResult (List ℕ) :=
  match (match value, default with
         | none, some d => some d
         | v, _ => v) with
  | none => .error .typeError
  | some v =>
    let bit_mask := (1 <<< bit_length) - 1
    if v &&& bit_mask != v then .error .fieldOverflow
    else
      let mask := bit_mask <<< bit_index
      let word := ((words.getD word_index 0 ||| mask) ^^^ mask) ||| (v <<< bit_index)
      .ok (words.take word_index ++ word :: words.drop (word_index + 1))

/-- Field definition (word_index, bit_index, bit_length, default): the
Python tuples of length 3 or 4, the optional default (an int, or a bool
standing for 0/1) as an Option. -/
abbrev FieldDef := ℕ × ℕ × ℕ × Option ℕ

/-- A HeaderParser is an astropy OrderedDict from field name to field
definition: a list of key-value pairs in insertion order. -/
abbrev HeaderParser := List (String × FieldDef)

/-- Dict lookup: the value stored under key k (first occurrence). -/
def HeaderParser.lookup (t : HeaderParser) (k : String) : Option FieldDef :=
  (t.find? (fun p => p.1 == k)).map Prod.snd

/-- Helper for HeaderParser.update: the entry an existing pair p ends up
as - other replaces the value at the key of p in place when it has that
key. -/
def HeaderParser.override (other : HeaderParser) (p : String × FieldDef) :
    String × FieldDef :=
  match HeaderParser.lookup other p.1 with
  | some v => (p.1, v)
  | none => p

/-- HeaderParser.update (vlbi_helpers.py lines 93-98), which is
OrderedDict.update: every entry of other replaces the value at an existing
key in place, keeping the original position, or is appended at the end in
the order of other. -/
def HeaderParser.update (t other : HeaderParser) : HeaderParser :=
  t.map (HeaderParser.override other) ++
    other.filter (fun p => (HeaderParser.lookup t p.1).isNone)

/-- HeaderParser.__add__ (vlbi_helpers.py lines 80-85): copy, then update
with the right operand. -/
def HeaderParser.add (t other : HeaderParser) : HeaderParser :=
  HeaderParser.update t other

/-! ### Frame-rate inference (vlbi_helpers.py get_frame_rate) -/

/-- One header as inspected by get_frame_rate: the frame_nr field and the
seconds property. -/
structure ScanHeader where
  frame_nr : ℕ
  seconds : ℕ
deriving DecidableEq

/-- First while loop of get_frame_rate (vlbi_helpers.py lines 285-287):
from the current header, skip headers while frame_nr == 0; reading past
the end of the stream raises EOFError. -/
def skipZeroFrames (cur : ScanHeader) (rest : List ScanHeader) :
    PyResult (ScanHeader × List ScanHeader) :=
  if cur.frame_nr = 0 then
    match rest with
    | [] => .error .eofError
    | h :: t => skipZeroFrames h t
  else .ok (cur, rest)

/-- Second while loop of get_frame_rate (vlbi_helpers.py lines 288-291):
while frame_nr > 0, remember it in max_frame and step to the next header;
stops at the first header whose frame_nr is 0 again, returning that header
together with the last value of max_frame. -/
def scanToWrap (cur : ScanHeader) (rest : List ScanHeader) (max_frame : ℕ) :
    PyResult (ScanHeader × ℕ) :=
  if cur.frame_nr > 0 then
    match rest with
    | [] => .error .eofError
    | h :: t => scanToWrap h t cur.frame_nr
  else .ok (cur, max_frame)

/-- Function get_frame_rate (vlbi_helpers.py lines 273-296).  The stream
lists the successive frame headers of the file (payload seeks are implicit
in stepping to the next element).  The soft warning of line 294 is
returned as a Boolean flag next to the result.  The Python max_frame
starts unassigned; since the second loop always runs at least once, the
start value 0 passed here is never returned. -/
def get_frame_rate (stream : List ScanHeader) : PyResult (ℕ × Bool) :=
  match stream with
  | [] => .error .eofError
  | h0 :: rest =>
    if h0.frame_nr ≠ 0 then .error .assertionError
    else
      match skipZeroFrames h0 rest with
      | .error e => .error e
      | .ok (h1, rest1) =>
        match scanToWrap h1 rest1 0 with
        | .error e => .error e
        | .ok (hw, max_frame) => .ok (max_frame + 1, decide (hw.seconds ≠ h0.seconds + 1))

/-! ### VDIF headers (vdif/header.py) -/

/-- A Python file handle over an in-memory byte string: the contents and
the current position. -/
structure FileHandle where
  data : List ℕ
  pos : ℕ
deriving DecidableEq

/-- fh.read(n): up to n bytes from the current position; the position
advances by the number of bytes actually read. -/
def FileHandle.read (fh : FileHandle) (n : ℕ) : List ℕ × FileHandle :=
  let s := (fh.data.drop fh.pos).take n
  (s, ⟨fh.data, fh.pos + s.length⟩)

/-- One little-endian 32-bit word from bytes 4i..4i+3 of s, as laid out by
the struct format <8I (vlbi_helpers.py line 8). -/
def unpack_word (s : List ℕ) (i : ℕ) : ℕ :=
  s.getD (4 * i) 0 + 2 ^ 8 * s.getD (4 * i + 1) 0 + 2 ^ 16 * s.getD (4 * i + 2) 0 +
    2 ^ 24 * s.getD (4 * i + 3) 0

/-- eight_word_struct.unpack (vlbi_helpers.py line 8). -/
def eight_word_unpack (s : List ℕ) : List ℕ :=
  (List.range 8).map (unpack_word s)

/-- is_legacy_header (vdif/header.py line 553): the legacy_mode parser of
VDIFBaseHeader, bit 30 of word 0, wrapped in bool(). -/
def is_legacy_header (words : List ℕ) : Bool :=
  ((words.getD 0 0 >>> 30) &&& 1) != 0

/-- VDIFHeader.fromfile (vdif/header.py lines 84-113): optimistically read
32 bytes (EOFError if fewer arrive), unpack eight little-endian words;
if the header is legacy, seek back 16 bytes and keep only the first four
words, else keep all eight.  The optional final self.verify() call is a
separate step that does not affect the bytes read or the positions; this
definition corresponds to fromfile(fh, verify=False). -/
def VDIFHeader.fromfile (fh : FileHandle) : PyResult (List ℕ × FileHandle) :=
  let r := fh.read 32
  if r.1.length ≠ 32 then .error .eofError
  else
    let words := eight_word_unpack r.1
    if is_legacy_header words then .ok (words.take 4, ⟨r.2.data, r.2.pos - 16⟩)
    else .ok (words, r.2)

/-- Modelled from the spec: the ref_epochs table of vdif/header.py lines
21-25 is built with astropy Time, which is not part of the sources.  Per
spec section 4.5, index k maps to the instant year 2000 + k/2, month 1 or
7, day 1, modelled as the count of seconds since 2000-01-01T00:00:00 with
contiguous 86400-second days (the TAI-like contiguous scale of the spec;
leap seconds are not modelled).  Valid through 2099, where every year
divisible by 4 is a leap year. -/
def ref_epoch_seconds (k : ℕ) : ℚ :=
  ((86400 * (365 * (k / 2) + (k / 2 + 3) / 4 +
    (if k % 2 = 1 then (if (k / 2) % 4 = 0 then 182 else 181) else 0)) : ℕ) : ℚ)

/-- Expression np.searchsorted((ref_epochs - time).sec, 0) of
vdif/header.py line 339: for an increasing epochs table of length n this
is the insertion index of 0 in the sorted difference array, the count of
epochs strictly before t. -/
def searchsorted_zero (n : ℕ) (epochs : ℕ → ℚ) (t : ℚ) : ℕ :=
  ((List.range n).filter (fun k => decide (epochs k < t))).length

/-- Python round: round half to even. -/
def pyRound (q : ℚ) : ℤ :=
  if q - ⌊q⌋ < 1 / 2 then ⌊q⌋
  else if q - ⌊q⌋ > 1 / 2 then ⌊q⌋ + 1
  else if ⌊q⌋ % 2 = 0 then ⌊q⌋ else ⌊q⌋ + 1

/-- VDIFHeader.set_time (vdif/header.py lines 321-354).  Time is a
rational count of seconds on the scale of the epochs table (length n,
increasing).  framerate is the explicit argument of set_time;
header_framerate stands for the self.framerate property, which only
VDIFSampleRateHeader subclasses provide (its absence is the
AttributeError re-raised as the ValueError of line 352, missingFrameRate).
The result triple contains the raw field values written to ref_epoch,
seconds and frame_nr.  int() truncates toward zero, which on the
nonnegative difference equals the floor. -/
def VDIFHeader.set_time (n : ℕ) (epochs : ℕ → ℚ) (t : ℚ)
    (framerate header_framerate : Option ℚ) : PyResult (ℕ × ℕ × ℤ) :=
  if ¬ epochs 0 < t then .error .assertionError
  else
    let ref_index := searchsorted_zero n epochs t - 1
    let seconds := t - epochs ref_index
    let int_sec := ⌊seconds⌋.toNat
    let frac_sec := seconds - int_sec
    if |frac_sec| < 2 / 1000000000 then .ok (ref_index, int_sec, 0)
    else
      match framerate with
      | some r => .ok (ref_index, int_sec, pyRound (frac_sec * r))
      | none =>
        match header_framerate with
        | some r => .ok (ref_index, int_sec, pyRound (frac_sec * r))
        | none => .error .missingFrameRate

/-! ### VDIF frame sets (vdif/frame.py) -/

/-- One frame as inspected by VDIFFrameSet.fromfile: the two header fields
the function reads.  Payload bytes are immaterial to the modelled control
flow and are omitted. -/
structure VDIFFrameRec where
  frame_nr : ℕ
  thread_id : ℕ
deriving DecidableEq

/-- The while loop of VDIFFrameSet.fromfile (vdif/frame.py lines 116-130):
collect every frame whose frame_nr matches the first header read, keeping
a frame when the thread allow-list is absent or contains its thread_id
(line 117) and skipping its payload otherwise; the Boolean records whether
the loop stopped on an EOFError while reading the next header (line 126)
rather than on a frame_nr change.  Payload reads and seeks are implicit in
stepping through the list; a stream ends exactly where its header list
does. -/
def collectVDIFFrames (frame_nr0 : ℕ) (thread_ids : Option (List ℕ)) :
    List VDIFFrameRec → List VDIFFrameRec × Bool
  | [] => ([], true)
  | h :: rest =>
    if h.frame_nr = frame_nr0 then
      let p := collectVDIFFrames frame_nr0 thread_ids rest
      ((if (match thread_ids with
            | none => true
            | some l => l.contains h.thread_id) then h :: p.1 else p.1), p.2)
    else ([], false)

/-- VDIFFrameSet.fromfile (vdif/frame.py lines 85-144).  In Python 2, the
dialect of this repository, the name exc bound by the except clause of
line 126 survives the except block, so when the loop stopped on EOF the
final bare raise of line 137 re-raises that EOFError; without an EOF stop
exc is still None and the IOError of line 139 (incompleteFrameSet) is
raised.  With thread_ids None, the requested count is
min(len(frames), 1) (line 133).  Sorting (line 142) is by thread_id. -/
def VDIFFrameSet.fromfile (stream : List VDIFFrameRec) (thread_ids : Option (List ℕ))
    (sort : Bool) : PyResult (List VDIFFrameRec) :=
  match stream with
  | [] => .error .eofError
  | h0 :: _ =>
    let p := collectVDIFFrames h0.frame_nr thread_ids stream
    let requested := match thread_ids with
      | some l => l.length
      | none => min p.1.length 1
    if p.1.length < requested then
      if p.2 then .error .eofError else .error .incompleteFrameSet
    else
      .ok (if sort then p.1.mergeSort (fun a b => decide (a.thread_id ≤ b.thread_id))
           else p.1)

/-! ### Properties of the track reordering -/

set_option maxHeartbeats 2000000 in
/-- Bit i (i < 64) of reorder64 x is bit reorderPerm i of x. -/
theorem testBit_reorder64 (x i : ℕ) (h : i < 64) :
    (reorder64 x).testBit i = x.testBit (reorderPerm i) := by
  interval_cases i <;>
  · simp only [reorder64, Nat.testBit_lor, Nat.testBit_land, Nat.testBit_shiftRight,
      Nat.testBit_shiftLeft]
    norm_num [reorderPerm, Nat.testBit_to_div_mod]

set_option maxHeartbeats 2000000 in
/-- Bit i (i < 32) of reorder32 x is bit reorderPerm i of x. -/
theorem testBit_reorder32 (x i : ℕ) (h : i < 32) :
    (reorder32 x).testBit i = x.testBit (reorderPerm i) := by
  interval_cases i <;>
  · simp only [reorder32, Nat.testBit_lor, Nat.testBit_land, Nat.testBit_shiftRight,
      Nat.testBit_shiftLeft]
    norm_num [reorderPerm, Nat.testBit_to_div_mod]

/-- reorder64 never leaves the 64-bit range. -/
theorem reorder64_lt (x : ℕ) : reorder64 x < 2 ^ 64 := by
  have h1 : x &&& 0xAA55AA55AA55AA55 < 2 ^ 64 :=
    lt_of_le_of_lt Nat.and_le_right (by norm_num)
  have h2 : (x &&& 0x5500550055005500) >>> 7 < 2 ^ 64 := by
    have ha := Nat.and_le_right (n := x) (m := 0x5500550055005500)
    have hb : (x &&& 0x5500550055005500) >>> 7 ≤ x &&& 0x5500550055005500 := by
      rw [Nat.shiftRight_eq_div_pow]; exact Nat.div_le_self _ _
    omega
  have h3 : (x &&& 0x00AA00AA00AA00AA) <<< 7 < 2 ^ 64 := by
    rw [Nat.shiftLeft_eq]
    calc (x &&& 0x00AA00AA00AA00AA) * 2 ^ 7
        ≤ 0x00AA00AA00AA00AA * 2 ^ 7 := Nat.mul_le_mul_right _ Nat.and_le_right
      _ < 2 ^ 64 := by norm_num
  exact Nat.bitwise_lt (Nat.bitwise_lt h1 h2) h3

/-- reorder32 never leaves the 32-bit range. -/
theorem reorder32_lt (x : ℕ) : reorder32 x < 2 ^ 32 := by
  have h1 : x &&& 0xAA55AA55 < 2 ^ 32 :=
    lt_of_le_of_lt Nat.and_le_right (by norm_num)
  have h2 : (x &&& 0x55005500) >>> 7 < 2 ^ 32 := by
    have ha := Nat.and_le_right (n := x) (m := 0x55005500)
    have hb : (x &&& 0x55005500) >>> 7 ≤ x &&& 0x55005500 := by
      rw [Nat.shiftRight_eq_div_pow]; exact Nat.div_le_self _ _
    omega
  have h3 : (x &&& 0x00AA00AA) <<< 7 < 2 ^ 32 := by
    rw [Nat.shiftLeft_eq]
    calc (x &&& 0x00AA00AA) * 2 ^ 7
        ≤ 0x00AA00AA * 2 ^ 7 := Nat.mul_le_mul_right _ Nat.and_le_right
      _ < 2 ^ 32 := by norm_num
  exact Nat.bitwise_lt (Nat.bitwise_lt h1 h2) h3

/-- The reorder permutation is a self-inverse map of the 64 bit indices. -/
theorem reorderPerm_invol64 : ∀ i < 64, reorderPerm (reorderPerm i) = i ∧ reorderPerm i < 64 := by
  decide

/-- Restricted to the low 32 bit indices it is self-inverse as well. -/
theorem reorderPerm_invol32 : ∀ i < 32, reorderPerm (reorderPerm i) = i ∧ reorderPerm i < 32 := by
  decide

/-- Helper: reorder64 is an involution on 64-bit words. -/
theorem reorder64_reorder64 (x : ℕ) (hx : x < 2 ^ 64) : reorder64 (reorder64 x) = x := by
  apply Nat.eq_of_testBit_eq
  intro i
  rcases lt_or_ge i 64 with h | h
  · rw [testBit_reorder64 _ i h, testBit_reorder64 _ _ (reorderPerm_invol64 i h).2,
      (reorderPerm_invol64 i h).1]
  · have h1 : (reorder64 (reorder64 x)).testBit i = false :=
      Nat.testBit_lt_two_pow
        (lt_of_lt_of_le (reorder64_lt _) (Nat.pow_le_pow_right (by norm_num) h))
    have h2 : x.testBit i = false :=
      Nat.testBit_lt_two_pow (lt_of_lt_of_le hx (Nat.pow_le_pow_right (by norm_num) h))
    rw [h1, h2]

/-- Helper: reorder32 is an involution on 32-bit words. -/
theorem reorder32_reorder32 (x : ℕ) (hx : x < 2 ^ 32) : reorder32 (reorder32 x) = x := by
  apply Nat.eq_of_testBit_eq
  intro i
  rcases lt_or_ge i 32 with h | h
  · rw [testBit_reorder32 _ i h, testBit_reorder32 _ _ (reorderPerm_invol32 i h).2,
      (reorderPerm_invol32 i h).1]
  · have h1 : (reorder32 (reorder32 x)).testBit i = false :=
      Nat.testBit_lt_two_pow
        (lt_of_lt_of_le (reorder32_lt _) (Nat.pow_le_pow_right (by norm_num) h))
    have h2 : x.testBit i = false :=
      Nat.testBit_lt_two_pow (lt_of_lt_of_le hx (Nat.pow_le_pow_right (by norm_num) h))
    rw [h1, h2]

/-- C10: the track-reorder permutations are involutions.  For every 64-bit
unsigned integer x, reorder64 (reorder64 x) = x, and for every 32-bit
unsigned integer x, reorder32 (reorder32 x) = x: the masked bit groups
shifted by 7 swap places, so applying the function twice restores every
bit, which is why the same function serves in decode and in encode. -/
theorem C10_reorder_involutions :
    (∀ x : ℕ, x < 2 ^ 64 → reorder64 (reorder64 x) = x) ∧
      (∀ x : ℕ, x < 2 ^ 32 → reorder32 (reorder32 x) = x) :=
  ⟨reorder64_reorder64, reorder32_reorder32⟩

/-- Witness for C10 at the concrete inputs 0x0A40D994F435D176 (64-bit) and
0xF435D176 (32-bit). -/
theorem C10_reorder_involutions_witness :
    reorder64 (reorder64 0x0A40D994F435D176) = 0x0A40D994F435D176 ∧
      reorder32 (reorder32 0xF435D176) = 0xF435D176 :=
  ⟨C10_reorder_involutions.1 0x0A40D994F435D176 (by norm_num),
    C10_reorder_involutions.2 0xF435D176 (by norm_num)⟩

/-- C7 counterexample: the hex spot-check of the spec is false on the
code.  The number 0x0A40D994F435D176 is 738829572664316278 - the decimal
output of the check, not its decimal input 738811025863578102 - and
reorder64 maps it to 0x0A40C8B6B0BD91F6, not to 0x0A40D99894F435B6. -/
theorem C7_reorder64_hex_counterexample :
    reorder64 0x0A40D994F435D176 = 0x0A40C8B6B0BD91F6 ∧
      reorder64 0x0A40D994F435D176 ≠ 0x0A40D99894F435B6 ∧
      (0x0A40D994F435D176 : ℕ) = 738829572664316278 ∧
      (0x0A40D994F435D176 : ℕ) ≠ 738811025863578102 := by
  refine ⟨by decide, by decide, by norm_num, by norm_num⟩

/-- C7 amended: on a little-endian host the 64-track reorder satisfies
reorder64 738811025863578102 = 738829572664316278, that is,
reorder64 0x0A40C8B6B0BD91F6 = 0x0A40D994F435D176 (the decimal pair of
the spec is correct; its hex rendering of the pair is not). -/
theorem C7_reorder64_spot_check :
    reorder64 738811025863578102 = 738829572664316278 := by decide

/-! ### Properties of the payload codec -/

/-- The quantizer returns a 2-bit index. -/
theorem encode_2bit_real_base_lt (v : ℚ) : encode_2bit_real_base v < 4 := by
  unfold encode_2bit_real_base
  split_ifs <;> norm_num

/-- reorder_bits keeps 2-bit indices 2-bit. -/
theorem reorder_bits_lt : ∀ b < 4, reorder_bits b < 4 := by decide

/-- Extracting measurement k from an or-reduced byte of four 2-bit values
recovers value k: the sign bit at 2k plus twice the magnitude bit at 2k+1
(the index expression of lut2bit1) equal the k-th packed value. -/
theorem byte_bits : ∀ b0 < 4, ∀ b1 < 4, ∀ b2 < 4, ∀ b3 < 4, ∀ k < 4,
    (((((b0 <<< 0) ||| (b1 <<< 2) ||| (b2 <<< 4) ||| (b3 <<< 6)) >>> (2 * k)) &&& 1) +
      ((((b0 <<< 0) ||| (b1 <<< 2) ||| (b2 <<< 4) ||| (b3 <<< 6)) >>> (2 * k + 1)) &&& 1) * 2) =
      [b0, b1, b2, b3].getD k 0 := by decide

/-- An or-reduced byte of four 2-bit values is a byte. -/
theorem or_byte_lt : ∀ b0 < 4, ∀ b1 < 4, ∀ b2 < 4, ∀ b3 < 4,
    ((b0 <<< 0) ||| (b1 <<< 2) ||| (b2 <<< 4) ||| (b3 <<< 6)) < 256 := by decide

/-- Each encoded byte lane fits in a byte. -/
theorem encByte_lt (x : ℕ → ℕ → ℚ) (w c : ℕ) : encByte x w c < 256 := by
  unfold encByte
  exact or_byte_lt _ (reorder_bits_lt _ (encode_2bit_real_base_lt _))
    _ (reorder_bits_lt _ (encode_2bit_real_base_lt _))
    _ (reorder_bits_lt _ (encode_2bit_real_base_lt _))
    _ (reorder_bits_lt _ (encode_2bit_real_base_lt _))

/-- The packed word fits in 64 bits. -/
theorem encWord_lt (x : ℕ → ℕ → ℚ) (w : ℕ) : encWord x w < 2 ^ 64 := by
  have h0 := encByte_lt x w 0
  have h1 := encByte_lt x w 1
  have h2 := encByte_lt x w 2
  have h3 := encByte_lt x w 3
  have h4 := encByte_lt x w 4
  have h5 := encByte_lt x w 5
  have h6 := encByte_lt x w 6
  have h7 := encByte_lt x w 7
  unfold encWord
  norm_num at h0 h1 h2 h3 h4 h5 h6 h7 ⊢
  omega

/-- Byte lane c of the packed word is the encoded byte of lane c. -/
theorem encWord_byte (x : ℕ → ℕ → ℚ) (w c : ℕ) (hc : c < 8) :
    ((encWord x w) >>> (8 * c)) &&& 255 = encByte x w c := by
  have h0 := encByte_lt x w 0
  have h1 := encByte_lt x w 1
  have h2 := encByte_lt x w 2
  have h3 := encByte_lt x w 3
  have h4 := encByte_lt x w 4
  have h5 := encByte_lt x w 5
  have h6 := encByte_lt x w 6
  have h7 := encByte_lt x w 7
  have hm : (255 : ℕ) = 2 ^ 8 - 1 := by norm_num
  interval_cases c <;>
  · rw [Nat.shiftRight_eq_div_pow, hm, Nat.and_pow_two_sub_one_eq_mod]
    unfold encWord
    norm_num at h0 h1 h2 h3 h4 h5 h6 h7 ⊢
    omega

/-- The channel permutation is a self-inverse map of the 8 channels. -/
theorem reorder_channels_invol :
    ∀ c < 8, reorder_channels (reorder_channels c) = c ∧ reorder_channels c < 8 := by decide

/-- Decoding the 2-bit index written for a quantization level returns that
level: encode maps -H, -1, +1, +H to 0, 1, 2, 3, reorder_bits renumbers
them to 0, 2, 1, 3, and lut4level reads them back as -H, -1, +1, +H. -/
theorem lut_level_roundtrip (v : ℚ) (hv : isLevel v) :
    lut4level (reorder_bits (encode_2bit_real_base v)) = v := by
  have e0 : encode_2bit_real_base (-OPTIMAL_2BIT_HIGH) = 0 := by
    norm_num [encode_2bit_real_base, OPTIMAL_2BIT_HIGH]
  have e1 : encode_2bit_real_base (-1) = 1 := by
    norm_num [encode_2bit_real_base, OPTIMAL_2BIT_HIGH]
  have e2 : encode_2bit_real_base 1 = 2 := by
    norm_num [encode_2bit_real_base, OPTIMAL_2BIT_HIGH]
  have e3 : encode_2bit_real_base OPTIMAL_2BIT_HIGH = 3 := by
    norm_num [encode_2bit_real_base, OPTIMAL_2BIT_HIGH]
  rcases hv with h | h | h | h <;> subst h
  · rw [e0]; rfl
  · rw [e1]; rfl
  · rw [e2]; rfl
  · rw [e3]; rfl

/-- C1: for the (nchan = 8, bps = 2, fanout = 4) layout, decoding the words
produced by encode_8chan_2bit_fanout4 with decode_8chan_2bit_fanout4
restores every entry of a (4n, 8) array exactly, whenever every entry is
one of the four levels -3.3359, -1, +1, +3.3359. -/
theorem C1_decode_encode_roundtrip (n : ℕ) (x : ℕ → ℕ → ℚ)
    (hx : ∀ t < 4 * n, ∀ c < 8, isLevel (x t c)) :
    ∀ t < 4 * n, ∀ c < 8,
      decode_8chan_2bit_fanout4 (encode_8chan_2bit_fanout4 x) t c = x t c := by
  intro t ht c hc
  unfold decode_8chan_2bit_fanout4 encode_8chan_2bit_fanout4
  rw [reorder64_reorder64 _ (encWord_lt x _)]
  rw [encWord_byte x _ _ (reorder_channels_invol c hc).2]
  unfold lut2bit1
  show lut4level _ = _
  rw [show encByte x (t / 4) (reorder_channels c) =
      (reorder_bits (encode_2bit_real_base (x (4 * (t / 4)) (reorder_channels (reorder_channels c)))) <<< 0) |||
      (reorder_bits (encode_2bit_real_base (x (4 * (t / 4) + 1) (reorder_channels (reorder_channels c)))) <<< 2) |||
      (reorder_bits (encode_2bit_real_base (x (4 * (t / 4) + 2) (reorder_channels (reorder_channels c)))) <<< 4) |||
      (reorder_bits (encode_2bit_real_base (x (4 * (t / 4) + 3) (reorder_channels (reorder_channels c)))) <<< 6)
      from rfl]
  rw [byte_bits _ (reorder_bits_lt _ (encode_2bit_real_base_lt _))
      _ (reorder_bits_lt _ (encode_2bit_real_base_lt _))
      _ (reorder_bits_lt _ (encode_2bit_real_base_lt _))
      _ (reorder_bits_lt _ (encode_2bit_real_base_lt _))
      _ (Nat.mod_lt t (by norm_num))]
  rw [(reorder_channels_invol c hc).1]
  have h4 : t % 4 = 0 ∨ t % 4 = 1 ∨ t % 4 = 2 ∨ t % 4 = 3 := by omega
  rcases h4 with h | h | h | h
  · rw [h]
    simp only [List.getD_cons_zero, List.getD_cons_succ]
    rw [show 4 * (t / 4) = t by omega]
    exact lut_level_roundtrip _ (hx t ht c hc)
  · rw [h]
    simp only [List.getD_cons_zero, List.getD_cons_succ]
    rw [show 4 * (t / 4) + 1 = t by omega]
    exact lut_level_roundtrip _ (hx t ht c hc)
  · rw [h]
    simp only [List.getD_cons_zero, List.getD_cons_succ]
    rw [show 4 * (t / 4) + 2 = t by omega]
    exact lut_level_roundtrip _ (hx t ht c hc)
  · rw [h]
    simp only [List.getD_cons_zero, List.getD_cons_succ]
    rw [show 4 * (t / 4) + 3 = t by omega]
    exact lut_level_roundtrip _ (hx t ht c hc)

/-- Witness for C1: a concrete (4, 8) array of levels, evaluated at sample
2, channel 3. -/
theorem C1_decode_encode_roundtrip_witness :
    decode_8chan_2bit_fanout4
        (encode_8chan_2bit_fanout4 (fun t c =>
          lut4level ((t + c) % 4))) 2 3 =
      lut4level ((2 + 3) % 4) := by
  refine C1_decode_encode_roundtrip 1 _ (fun t ht c hc => ?_) 2 (by norm_num) 3 (by norm_num)
  have h : (t + c) % 4 = 0 ∨ (t + c) % 4 = 1 ∨ (t + c) % 4 = 2 ∨ (t + c) % 4 = 3 := by omega
  unfold isLevel
  rcases h with h | h | h | h <;> rw [h] <;> simp [lut4level]

/-! ### Properties of the bit-field engine -/

/-- Bits of the word computed by make_setter (field bits zeroed, value
or-ed in): inside the field they come from the value, outside from the
original word. -/
theorem field_word_testBit (w v bi bl : ℕ) (hv : v < 2 ^ bl) (k : ℕ) :
    (((w ||| (((1 <<< bl) - 1) <<< bi)) ^^^ (((1 <<< bl) - 1) <<< bi)) |||
        (v <<< bi)).testBit k =
      if bi ≤ k ∧ k < bi + bl then v.testBit (k - bi) else w.testBit k := by
  have h1 : (1 : ℕ) <<< bl = 2 ^ bl := by rw [Nat.shiftLeft_eq, one_mul]
  simp only [h1, Nat.testBit_lor, Nat.testBit_xor, Nat.testBit_shiftLeft,
    Nat.testBit_two_pow_sub_one, ge_iff_le]
  by_cases hk1 : bi ≤ k
  · by_cases hk2 : k < bi + bl
    · have hkk : k - bi < bl := by omega
      simp [hk1, hk2, hkk]
    · have hkk : ¬ k - bi < bl := by omega
      have hvb : v.testBit (k - bi) = false :=
        Nat.testBit_lt_two_pow
          (lt_of_lt_of_le hv (Nat.pow_le_pow_right (by norm_num) (by omega)))
      simp [hk1, hk2, hkk, hvb]
  · simp [hk1, fun h : bi ≤ k ∧ k < bi + bl => hk1 h.1]

/-- Reading the field back from such a word returns the value. -/
theorem field_word_extract (w v bi bl : ℕ) (hv : v < 2 ^ bl) :
    ((((w ||| (((1 <<< bl) - 1) <<< bi)) ^^^ (((1 <<< bl) - 1) <<< bi)) |||
        (v <<< bi)) >>> bi) &&& ((1 <<< bl) - 1) = v := by
  have h1 : (1 : ℕ) <<< bl = 2 ^ bl := by rw [Nat.shiftLeft_eq, one_mul]
  apply Nat.eq_of_testBit_eq
  intro k
  rw [Nat.testBit_land, Nat.testBit_shiftRight, field_word_testBit w v bi bl hv (bi + k), h1,
    Nat.testBit_two_pow_sub_one]
  by_cases hk : k < bl
  · rw [if_pos ⟨by omega, by omega⟩, show bi + k - bi = k by omega]
    simp [hk]
  · rw [if_neg (by omega)]
    have hvb : v.testBit k = false :=
      Nat.testBit_lt_two_pow
        (lt_of_lt_of_le hv (Nat.pow_le_pow_right (by norm_num) (by omega)))
    simp [hk, hvb]

/-- For a width-32 field at bit 0 of a 32-bit word, the stored word is the
value itself. -/
theorem field_word_full (w v : ℕ) (hw : w < 2 ^ 32) (hv : v < 2 ^ 32) :
    ((w ||| (((1 <<< 32) - 1) <<< 0)) ^^^ (((1 <<< 32) - 1) <<< 0)) ||| (v <<< 0) = v := by
  apply Nat.eq_of_testBit_eq
  intro k
  rw [field_word_testBit w v 0 32 hv k]
  by_cases hk : k < 32
  · rw [if_pos ⟨Nat.zero_le _, by omega⟩, Nat.sub_zero]
  · rw [if_neg (by omega)]
    rw [Nat.testBit_lt_two_pow
        (lt_of_lt_of_le hw (Nat.pow_le_pow_right (by norm_num) (by omega))),
      Nat.testBit_lt_two_pow
        (lt_of_lt_of_le hv (Nat.pow_le_pow_right (by norm_num) (by omega)))]

/-- A value that passes the mask check of make_setter fits in the width. -/
theorem fit_lt_two_pow (v bl : ℕ) (hv : v &&& ((1 <<< bl) - 1) = v) : v < 2 ^ bl := by
  have h1 : (1 : ℕ) <<< bl = 2 ^ bl := by rw [Nat.shiftLeft_eq, one_mul]
  rw [h1, Nat.and_pow_two_sub_one_eq_mod] at hv
  have h2 : v % 2 ^ bl < 2 ^ bl := Nat.mod_lt v (Nat.pos_pow_of_pos bl (by norm_num))
  omega

/-- On a fitting value, make_setter succeeds and replaces exactly word
word_index of the vector. -/
theorem make_setter_ok (wi bi bl : ℕ) (d : Option ℕ) (words : List ℕ) (v : ℕ)
    (hwi : wi < words.length) (hv : v &&& ((1 <<< bl) - 1) = v) :
    make_setter wi bi bl d words (some v) =
      .ok (words.set wi
        (((words.getD wi 0 ||| (((1 <<< bl) - 1) <<< bi)) ^^^ (((1 <<< bl) - 1) <<< bi)) |||
          (v <<< bi))) := by
  unfold make_setter
  rw [List.set_eq_take_cons_drop _ hwi]
  simp [hv]

/-- Helper: getD at an in-range index is a member of the list. -/
theorem getD_mem_of_lt {l : List ℕ} {i : ℕ} (h : i < l.length) : l.getD i 0 ∈ l := by
  rw [List.getD_eq_getElem?_getD, List.getElem?_eq_getElem h]
  exact List.getElem_mem h

/-- C2: for a field (word_index, bit_index, bit_length) of a parser table
(width 1..32, fitting in its 32-bit word, word_index within the vector)
and a fitting value v, the setter built by make_setter leaves every bit
outside the field unchanged, and the parser built for the same field then
returns v - as a Python bool when the width is 1, as an integer
otherwise. -/
theorem C2_set_get_isolation (wi bi bl : ℕ) (d : Option ℕ) (words : List ℕ) (v : ℕ)
    (hbl : 1 ≤ bl) (hfit : bi + bl ≤ 32) (hwi : wi < words.length)
    (hwords : ∀ w ∈ words, w < 2 ^ 32) (hv : v &&& ((1 <<< bl) - 1) = v) :
    ∃ words', make_setter wi bi bl d words (some v) = .ok words' ∧
      words'.length = words.length ∧
      (∀ j, j ≠ wi → words'.getD j 0 = words.getD j 0) ∧
      (∀ k, k < bi ∨ bi + bl ≤ k →
        (words'.getD wi 0).testBit k = (words.getD wi 0).testBit k) ∧
      makeParser wi bi bl words' =
        (if bl = 1 then FieldValue.bool (v == 1) else FieldValue.int v) := by
  have hvlt : v < 2 ^ bl := fit_lt_two_pow v bl hv
  refine ⟨_, make_setter_ok wi bi bl d words v hwi hv, ?_, ?_, ?_, ?_⟩
  · exact List.length_set words wi _
  · intro j hj
    simp [List.getD_eq_getElem?_getD, List.getElem?_set_ne (Ne.symm hj)]
  · intro k hk
    have hw : (words.set wi
        (((words.getD wi 0 ||| (((1 <<< bl) - 1) <<< bi)) ^^^ (((1 <<< bl) - 1) <<< bi)) |||
          (v <<< bi))).getD wi 0 =
        ((words.getD wi 0 ||| (((1 <<< bl) - 1) <<< bi)) ^^^ (((1 <<< bl) - 1) <<< bi)) |||
          (v <<< bi) := by
      simp [List.getD_eq_getElem?_getD, List.getElem?_set_self hwi]
    rw [hw, field_word_testBit _ v bi bl hvlt k, if_neg (by omega)]
  · have hw : (words.set wi
        (((words.getD wi 0 ||| (((1 <<< bl) - 1) <<< bi)) ^^^ (((1 <<< bl) - 1) <<< bi)) |||
          (v <<< bi))).getD wi 0 =
        ((words.getD wi 0 ||| (((1 <<< bl) - 1) <<< bi)) ^^^ (((1 <<< bl) - 1) <<< bi)) |||
          (v <<< bi) := by
      simp [List.getD_eq_getElem?_getD, List.getElem?_set_self hwi]
    unfold makeParser
    by_cases h1 : bl = 1
    · subst h1
      rw [if_pos rfl, if_pos rfl, hw]
      have hx : ((((words.getD wi 0 ||| (((1 <<< 1) - 1) <<< bi)) ^^^
          (((1 <<< 1) - 1) <<< bi)) ||| (v <<< bi)) >>> bi) &&& 1 = v :=
        field_word_extract (words.getD wi 0) v bi 1 hvlt
      rw [hx]
      have hv2 : v < 2 := by norm_num at hvlt; omega
      interval_cases v <;> rfl
    · rw [if_neg h1, if_neg h1]
      by_cases h32 : bl = 32
      · subst h32
        rw [if_pos rfl, hw]
        have hbi : bi = 0 := by omega
        subst hbi
        rw [field_word_full _ v (hwords _ (getD_mem_of_lt hwi)) (by norm_num at hvlt ⊢; omega)]
      · rw [if_neg h32, hw, field_word_extract _ v bi bl hvlt]

/-- Witness for C2 at word_index 1, bit_index 4, width 8, value 0xAB on
the vector [7, 0xFFFFFFFF, 3]. -/
theorem C2_set_get_isolation_witness :
    ∃ words', make_setter 1 4 8 none [7, 0xFFFFFFFF, 3] (some 0xAB) = .ok words' ∧
      words'.length = [7, 0xFFFFFFFF, 3].length ∧
      (∀ j, j ≠ 1 → words'.getD j 0 = [7, 0xFFFFFFFF, 3].getD j 0) ∧
      (∀ k, k < 4 ∨ 4 + 8 ≤ k →
        (words'.getD 1 0).testBit k = ([7, 0xFFFFFFFF, 3].getD 1 0).testBit k) ∧
      makeParser 1 4 8 words' =
        (if 8 = 1 then FieldValue.bool (0xAB == 1) else FieldValue.int 0xAB) :=
  C2_set_get_isolation 1 4 8 none [7, 0xFFFFFFFF, 3] 0xAB (by norm_num) (by norm_num)
    (by norm_num) (by decide) (by decide)

/-- C3: for a field of width bit_length, writing any v with
v &&& mask = v succeeds, while any v with a bit outside the mask makes
make_setter raise fieldOverflow (the ValueError of vlbi_helpers.py line
36), producing no word vector at all. -/
theorem C3_width_fit (wi bi bl : ℕ) (d : Option ℕ) (words : List ℕ) (v : ℕ)
    (hwi : wi < words.length) :
    (v &&& ((1 <<< bl) - 1) = v →
      ∃ words', make_setter wi bi bl d words (some v) = .ok words') ∧
    (v &&& ((1 <<< bl) - 1) ≠ v →
      make_setter wi bi bl d words (some v) = .error .fieldOverflow) := by
  constructor
  · intro hv
    exact ⟨_, make_setter_ok wi bi bl d words v hwi hv⟩
  · intro hv
    unfold make_setter
    simp [hv]

/-- Witness for C3 at a 6-bit field: value 63 fits, value 64 overflows. -/
theorem C3_width_fit_witness :
    ((63 &&& ((1 <<< 6) - 1) = 63 →
      ∃ words', make_setter 0 10 6 none [5, 7] (some 63) = .ok words') ∧
      (63 &&& ((1 <<< 6) - 1) ≠ 63 →
        make_setter 0 10 6 none [5, 7] (some 63) = .error .fieldOverflow)) ∧
    ((64 &&& ((1 <<< 6) - 1) = 64 →
      ∃ words', make_setter 0 10 6 none [5, 7] (some 64) = .ok words') ∧
      (64 &&& ((1 <<< 6) - 1) ≠ 64 →
        make_setter 0 10 6 none [5, 7] (some 64) = .error .fieldOverflow)) :=
  ⟨C3_width_fit 0 10 6 none [5, 7] 63 (by norm_num),
    C3_width_fit 0 10 6 none [5, 7] 64 (by norm_num)⟩

/-! ### Properties of parser-table merging -/

/-- Overriding never changes the key of an entry. -/
theorem override_fst (other : HeaderParser) (p : String × FieldDef) :
    (HeaderParser.override other p).1 = p.1 := by
  unfold HeaderParser.override
  split <;> rfl

/-- Dict lookup on a cons cell. -/
theorem lookup_cons (p : String × FieldDef) (t : HeaderParser) (k : String) :
    HeaderParser.lookup (p :: t) k =
      if p.1 == k then some p.2 else HeaderParser.lookup t k := by
  unfold HeaderParser.lookup
  rw [List.find?_cons]
  cases h : (p.1 == k) <;> simp [h]

/-- Dict lookup on concatenated tables: the left table wins. -/
theorem lookup_append (l1 l2 : HeaderParser) (k : String) :
    HeaderParser.lookup (l1 ++ l2) k =
      (HeaderParser.lookup l1 k).or (HeaderParser.lookup l2 k) := by
  unfold HeaderParser.lookup
  rw [List.find?_append]
  cases h : List.find? (fun p => p.1 == k) l1 <;> simp [h, Option.or]

/-- Lookup through an override map: the overriding table c wins at keys it
has; the mapped table supplies the rest, and only keys of t appear. -/
theorem lookup_map_override (c t : HeaderParser) (k : String) :
    HeaderParser.lookup (t.map (HeaderParser.override c)) k =
      (match HeaderParser.lookup t k with
       | some v => some ((HeaderParser.lookup c k).getD v)
       | none => none) := by
  induction t with
  | nil => rfl
  | cons p t ih =>
    rw [List.map_cons, lookup_cons, lookup_cons, override_fst]
    cases hk : (p.1 == k)
    · rw [if_neg (by simp [hk]), if_neg (by simp [hk]), ih]
    · have hk' : p.1 = k := by simpa using hk
      rw [if_pos (by simp), if_pos (by simp)]
      unfold HeaderParser.override
      rw [hk']
      rcases hc : HeaderParser.lookup c k with _ | w <;> simp [hc]

/-- Lookup in the appended part of an update: entries survive the filter
exactly when the base table does not bind their key. -/
theorem lookup_filter_isNone (a c : HeaderParser) (k : String) :
    HeaderParser.lookup (c.filter (fun p => (HeaderParser.lookup a p.1).isNone)) k =
      (if (HeaderParser.lookup a k).isNone then HeaderParser.lookup c k else none) := by
  induction c with
  | nil =>
    cases h : (HeaderParser.lookup a k).isNone <;> simp [h, HeaderParser.lookup]
  | cons p c ih =>
    rw [List.filter_cons]
    cases hg : (HeaderParser.lookup a p.1).isNone
    · cases hk : (p.1 == k)
      · simp only [hg, Bool.false_eq_true, if_false]
        rw [ih, lookup_cons, hk]
        simp
      · have hk' : p.1 = k := by simpa using hk
        rw [hk'] at hg
        simp only [hg, Bool.false_eq_true, if_false]
        rw [ih]
        simp [hg]
    · cases hk : (p.1 == k)
      · simp only [hg, if_true]
        rw [lookup_cons, lookup_cons, hk, ih]
        simp
      · have hk' : p.1 = k := by simpa using hk
        rw [hk'] at hg
        simp only [hg, if_true]
        rw [lookup_cons, lookup_cons, hk]
        simp [hg]

/-- Lookup after an update: the right operand wins wherever it binds the
key, the left operand is consulted otherwise. -/
theorem lookup_update (b c : HeaderParser) (k : String) :
    HeaderParser.lookup (HeaderParser.update b c) k =
      (HeaderParser.lookup c k).or (HeaderParser.lookup b k) := by
  show HeaderParser.lookup (b.map (HeaderParser.override c) ++
      c.filter (fun p => (HeaderParser.lookup b p.1).isNone)) k = _
  rw [lookup_append, lookup_map_override, lookup_filter_isNone]
  rcases hb : HeaderParser.lookup b k with _ | vb <;>
    rcases hc : HeaderParser.lookup c k with _ | vc <;>
      simp [hb, hc, Option.or]

/-- Overriding by b and then by c is overriding by b + c. -/
theorem override_override (b c : HeaderParser) (p : String × FieldDef) :
    HeaderParser.override c (HeaderParser.override b p) =
      HeaderParser.override (HeaderParser.add b c) p := by
  rcases hb : HeaderParser.lookup b p.1 with _ | vb
  · have e1 : HeaderParser.override b p = p := by
      unfold HeaderParser.override
      rw [hb]
    rw [e1]
    unfold HeaderParser.override
    rw [HeaderParser.add, lookup_update, hb]
    rcases hc : HeaderParser.lookup c p.1 with _ | vc <;> simp [Option.or]
  · have e1 : HeaderParser.override b p = (p.1, vb) := by
      unfold HeaderParser.override
      rw [hb]
    rw [e1]
    unfold HeaderParser.override
    show (match HeaderParser.lookup c p.1 with
          | some v => (p.1, v)
          | none => (p.1, vb)) = _
    rw [HeaderParser.add, lookup_update, hb]
    rcases hc : HeaderParser.lookup c p.1 with _ | vc <;> simp [Option.or]

/-- A key is absent from a merge exactly when both operands lack it. -/
theorem isNone_lookup_add (a b : HeaderParser) (k : String) :
    (HeaderParser.lookup (HeaderParser.add a b) k).isNone =
      ((HeaderParser.lookup a k).isNone && (HeaderParser.lookup b k).isNone) := by
  rw [HeaderParser.add, lookup_update]
  rcases hb : HeaderParser.lookup b k with _ | vb <;>
    rcases ha : HeaderParser.lookup a k with _ | va <;> simp [Option.or]

/-- C6: parser-table merge (HeaderParser.__add__) is associative:
(A + B) + C = A + (B + C) as ordered mappings from field name to field
definition.  A name present in both operands keeps the left position but
takes the right definition; names only in the right operand are appended
at the end - both facts are embodied in HeaderParser.update, and the
resulting merge associates. -/
theorem C6_merge_assoc (a b c : HeaderParser) :
    HeaderParser.add (HeaderParser.add a b) c =
      HeaderParser.add a (HeaderParser.add b c) := by
  show (a.map (HeaderParser.override b) ++
        b.filter (fun p => (HeaderParser.lookup a p.1).isNone)).map (HeaderParser.override c) ++
      c.filter (fun p => (HeaderParser.lookup (HeaderParser.add a b) p.1).isNone) =
    a.map (HeaderParser.override (HeaderParser.add b c)) ++
      (b.map (HeaderParser.override c) ++
        c.filter (fun p => (HeaderParser.lookup b p.1).isNone)).filter
          (fun p => (HeaderParser.lookup a p.1).isNone)
  rw [List.map_append, List.map_map, List.filter_append, List.filter_map]
  have h1 : (HeaderParser.override c ∘ HeaderParser.override b) =
      HeaderParser.override (HeaderParser.add b c) := by
    funext p
    exact override_override b c p
  have h2 : ((fun p : String × FieldDef => (HeaderParser.lookup a p.1).isNone) ∘
      HeaderParser.override c) =
      (fun p : String × FieldDef => (HeaderParser.lookup a p.1).isNone) := by
    funext p
    simp only [Function.comp_apply]
    rw [override_fst]
  have h3 : (fun p : String × FieldDef =>
      (HeaderParser.lookup (HeaderParser.add a b) p.1).isNone) =
      (fun p : String × FieldDef =>
        ((HeaderParser.lookup a p.1).isNone && (HeaderParser.lookup b p.1).isNone)) := by
    funext p
    exact isNone_lookup_add a b p.1
  rw [h1, h2, h3, List.filter_filter, List.append_assoc]

/-! ### Properties of VDIFHeader.fromfile -/

/-- C4: VDIFHeader.fromfile always asks the reader for 32 bytes.  With
fewer than 32 bytes left it raises EOFError.  When bit 30 of word 0 of the
bytes read is set (legacy_mode), the returned word vector is the first
four of the eight unpacked words and the reader is rewound by 16 bytes,
leaving it 16 bytes past the start; otherwise the returned header has
eight words and the reader has advanced by 32 bytes. -/
theorem C4_fromfile_spec (fh : FileHandle) :
    (fh.data.length < fh.pos + 32 →
      VDIFHeader.fromfile fh = .error .eofError) ∧
    (fh.pos + 32 ≤ fh.data.length →
      (is_legacy_header (eight_word_unpack ((fh.data.drop fh.pos).take 32)) = true →
        VDIFHeader.fromfile fh =
          .ok ((eight_word_unpack ((fh.data.drop fh.pos).take 32)).take 4,
            ⟨fh.data, fh.pos + 16⟩) ∧
        ((eight_word_unpack ((fh.data.drop fh.pos).take 32)).take 4).length = 4) ∧
      (is_legacy_header (eight_word_unpack ((fh.data.drop fh.pos).take 32)) = false →
        VDIFHeader.fromfile fh =
          .ok (eight_word_unpack ((fh.data.drop fh.pos).take 32),
            ⟨fh.data, fh.pos + 32⟩) ∧
        (eight_word_unpack ((fh.data.drop fh.pos).take 32)).length = 8)) := by
  have hlen : ((fh.data.drop fh.pos).take 32).length = min 32 (fh.data.length - fh.pos) := by
    simp
  have hu8 : (eight_word_unpack ((fh.data.drop fh.pos).take 32)).length = 8 := by
    simp [eight_word_unpack]
  constructor
  · intro h
    have hne : ((fh.data.drop fh.pos).take 32).length ≠ 32 := by
      rw [hlen]; omega
    simp only [VDIFHeader.fromfile, FileHandle.read]
    rw [if_pos hne]
  · intro h
    have h32 : ((fh.data.drop fh.pos).take 32).length = 32 := by
      rw [hlen]; omega
    have hpos16 : fh.pos + 32 - 16 = fh.pos + 16 := by omega
    constructor
    · intro hleg
      refine ⟨?_, by simp [hu8]⟩
      simp only [VDIFHeader.fromfile, FileHandle.read]
      rw [if_neg (by rw [h32]; exact fun hc => hc rfl), if_pos hleg, h32, hpos16]
    · intro hleg
      refine ⟨?_, hu8⟩
      simp only [VDIFHeader.fromfile, FileHandle.read]
      rw [if_neg (by rw [h32]; exact fun hc => hc rfl),
        if_neg (by rw [hleg]; exact Bool.false_ne_true), h32]

/-- Witness for C4 on a 40-byte all-zero stream (non-legacy since bit 30
of word 0 is clear): eight words are returned and the position moves from
0 to 32. -/
theorem C4_fromfile_spec_witness :
    VDIFHeader.fromfile ⟨List.replicate 40 0, 0⟩ =
      .ok (eight_word_unpack (((List.replicate 40 0 : List ℕ).drop 0).take 32),
        ⟨List.replicate 40 0, 0 + 32⟩) :=
  (((C4_fromfile_spec ⟨List.replicate 40 0, 0⟩).2 (by simp)).2 (by decide)).1

/-! ### Properties of VDIFHeader.set_time -/

/-- Evaluation helper: toNat on the integer literal 2. -/
theorem toNat_lit_two : (2 : ℤ).toNat = 2 := rfl

/-- Evaluation helper: toNat on the integer literal 15724800. -/
theorem toNat_lit_sec : (15724800 : ℤ).toNat = 15724800 := rfl

/-- The searchsorted count exceeds every index whose epoch lies strictly
before t (the filtered range keeps the whole initial segment up to it). -/
theorem searchsorted_ge (n : ℕ) (epochs : ℕ → ℚ) (t : ℚ)
    (hmono : ∀ i j, i < j → j < n → epochs i < epochs j)
    (j : ℕ) (hj : j < n) (hpj : epochs j < t) :
    j < searchsorted_zero n epochs t := by
  have hsub : (List.range (j + 1)).filter (fun k => decide (epochs k < t)) =
      List.range (j + 1) := by
    rw [List.filter_eq_self]
    intro a ha
    rw [List.mem_range] at ha
    rcases Nat.lt_or_ge a j with h | h
    · exact decide_eq_true (lt_trans (hmono a j h hj) hpj)
    · have : a = j := by omega
      subst this
      exact decide_eq_true hpj
  have hsl : List.Sublist ((List.range (j + 1)).filter (fun k => decide (epochs k < t)))
      ((List.range n).filter (fun k => decide (epochs k < t))) :=
    List.Sublist.filter _ (List.range_sublist.mpr (by omega))
  have := hsl.length_le
  rw [hsub, List.length_range] at this
  unfold searchsorted_zero
  omega

/-- The reference index chosen by set_time (searchsorted count minus one)
is a valid index whose epoch lies strictly before t. -/
theorem searchsorted_lt_t (n : ℕ) (epochs : ℕ → ℚ) (t : ℚ) (hn : 1 ≤ n)
    (hmono : ∀ i j, i < j → j < n → epochs i < epochs j)
    (h0 : epochs 0 < t) :
    searchsorted_zero n epochs t - 1 < n ∧
      epochs (searchsorted_zero n epochs t - 1) < t := by
  have hge1 : 1 ≤ searchsorted_zero n epochs t :=
    searchsorted_ge n epochs t hmono 0 (by omega) h0
  have hlen : searchsorted_zero n epochs t ≤ n := by
    unfold searchsorted_zero
    have := List.length_filter_le (fun k => decide (epochs k < t)) (List.range n)
    simpa using this
  refine ⟨by omega, ?_⟩
  by_contra hc
  push_neg at hc
  have hsubset : ∀ x ∈ (List.range n).filter (fun k => decide (epochs k < t)),
      x ∈ List.range (searchsorted_zero n epochs t - 1) := by
    intro x hx
    rw [List.mem_filter, List.mem_range] at hx
    rw [List.mem_range]
    have hxt : epochs x < t := of_decide_eq_true hx.2
    by_contra hxc
    push_neg at hxc
    rcases Nat.lt_or_ge (searchsorted_zero n epochs t - 1) x with h | h
    · exact absurd (lt_trans (hmono _ x h hx.1) hxt) (not_lt.mpr hc)
    · have : x = searchsorted_zero n epochs t - 1 := by omega
      subst this
      exact absurd hxt (not_lt.mpr hc)
  have hnd : ((List.range n).filter (fun k => decide (epochs k < t))).Nodup :=
    (List.nodup_range n).filter _
  have hsp := (hnd.subperm (fun x hx => hsubset x hx)).length_le
  rw [List.length_range] at hsp
  unfold searchsorted_zero at hsp hge1
  omega

/-- C5 counterexample: the claim fails at times lying exactly on a
reference epoch.  At t = ref_epoch_seconds 1 (with the first three table
entries), the largest k with ref_epoch[k] <= t is 1 - epoch 1 equals t and
epoch 2 lies after it - yet set_time stores ref_epoch = 0, computing
seconds = 15724800 (a full half year) instead of 0: np.searchsorted of
vdif/header.py line 339 locates the first epoch at or after t, so the
code picks the largest k with ref_epoch[k] strictly before t. -/
theorem C5_set_time_counterexample :
    VDIFHeader.set_time 3 ref_epoch_seconds (ref_epoch_seconds 1) none none =
      .ok (0, 15724800, 0) ∧
    ref_epoch_seconds 1 ≤ ref_epoch_seconds 1 ∧
    ¬ ref_epoch_seconds 2 ≤ ref_epoch_seconds 1 ∧
    (0 : ℕ) ≠ 1 := by
  refine ⟨?_, le_refl _, by norm_num [ref_epoch_seconds], by norm_num⟩
  norm_num [VDIFHeader.set_time, searchsorted_zero, List.range_succ, ref_epoch_seconds,
    toNat_lit_sec]

/-- C5 amended: for every time t strictly after epoch 0 of an increasing
epochs table of length n >= 1, set_time stores in ref_epoch the largest
index k with ref_epoch[k] strictly below t (not: at or below t, which
differs when t is exactly an epoch), stores floor(t - ref_epoch[k]) in
seconds, and stores 0 in frame_nr when the leftover fraction is below
2 ns and round(frac_sec x framerate) otherwise, the rate being the
explicit argument or the header framerate property; when neither exists
it fails with missingFrameRate. -/
theorem C5_set_time_spec (n : ℕ) (epochs : ℕ → ℚ) (t : ℚ) (fr hr : Option ℚ)
    (hn : 1 ≤ n)
    (hmono : ∀ i j, i < j → j < n → epochs i < epochs j)
    (h0 : epochs 0 < t) :
    (searchsorted_zero n epochs t - 1 < n ∧
      epochs (searchsorted_zero n epochs t - 1) < t ∧
      (∀ j < n, epochs j < t → j ≤ searchsorted_zero n epochs t - 1)) ∧
    (|t - epochs (searchsorted_zero n epochs t - 1) -
        (⌊t - epochs (searchsorted_zero n epochs t - 1)⌋.toNat : ℚ)| < 2 / 1000000000 →
      VDIFHeader.set_time n epochs t fr hr =
        .ok (searchsorted_zero n epochs t - 1,
          ⌊t - epochs (searchsorted_zero n epochs t - 1)⌋.toNat, 0)) ∧
    (¬ |t - epochs (searchsorted_zero n epochs t - 1) -
        (⌊t - epochs (searchsorted_zero n epochs t - 1)⌋.toNat : ℚ)| < 2 / 1000000000 →
      (∀ r, fr = some r →
        VDIFHeader.set_time n epochs t fr hr =
          .ok (searchsorted_zero n epochs t - 1,
            ⌊t - epochs (searchsorted_zero n epochs t - 1)⌋.toNat,
            pyRound ((t - epochs (searchsorted_zero n epochs t - 1) -
              (⌊t - epochs (searchsorted_zero n epochs t - 1)⌋.toNat : ℚ)) * r))) ∧
      (fr = none → ∀ r, hr = some r →
        VDIFHeader.set_time n epochs t fr hr =
          .ok (searchsorted_zero n epochs t - 1,
            ⌊t - epochs (searchsorted_zero n epochs t - 1)⌋.toNat,
            pyRound ((t - epochs (searchsorted_zero n epochs t - 1) -
              (⌊t - epochs (searchsorted_zero n epochs t - 1)⌋.toNat : ℚ)) * r))) ∧
      (fr = none → hr = none →
        VDIFHeader.set_time n epochs t fr hr = .error .missingFrameRate)) := by
  obtain ⟨hkn, hkt⟩ := searchsorted_lt_t n epochs t hn hmono h0
  refine ⟨⟨hkn, hkt, ?_⟩, ?_, ?_⟩
  · intro j hj hpj
    have := searchsorted_ge n epochs t hmono j hj hpj
    omega
  · intro hfrac
    simp only [VDIFHeader.set_time]
    rw [if_neg (not_not_intro h0), if_pos hfrac]
  · intro hfrac
    refine ⟨?_, ?_, ?_⟩
    · intro r hrf
      subst hrf
      simp only [VDIFHeader.set_time]
      rw [if_neg (not_not_intro h0), if_neg hfrac]
    · intro hf r hh
      subst hf
      subst hh
      simp only [VDIFHeader.set_time]
      rw [if_neg (not_not_intro h0), if_neg hfrac]
    · intro hf hh
      subst hf
      subst hh
      simp only [VDIFHeader.set_time]
      rw [if_neg (not_not_intro h0), if_neg hfrac]

/-- Witness for C5 at 2.5 seconds past epoch 1 within the first three
table entries, with an explicit frame rate of 4 Hz: ref_epoch 1,
seconds 2, frame_nr 10 / 4 rounded to 2. -/
theorem C5_set_time_spec_witness :
    VDIFHeader.set_time 3 ref_epoch_seconds (ref_epoch_seconds 1 + 5 / 2) (some 4) none =
      .ok (1, 2, 2) := by
  have hmono : ∀ i j, i < j → j < 3 → ref_epoch_seconds i < ref_epoch_seconds j := by
    intro i j hij hj
    interval_cases j <;> interval_cases i <;> norm_num [ref_epoch_seconds]
  have h := (C5_set_time_spec 3 ref_epoch_seconds (ref_epoch_seconds 1 + 5 / 2) (some 4) none
    (by norm_num) hmono (by norm_num [ref_epoch_seconds])).2.2
  have hfrac : ¬ |ref_epoch_seconds 1 + 5 / 2 -
      ref_epoch_seconds (searchsorted_zero 3 ref_epoch_seconds (ref_epoch_seconds 1 + 5 / 2) - 1) -
      ((⌊ref_epoch_seconds 1 + 5 / 2 -
        ref_epoch_seconds (searchsorted_zero 3 ref_epoch_seconds
          (ref_epoch_seconds 1 + 5 / 2) - 1)⌋).toNat : ℚ)| < 2 / 1000000000 := by
    norm_num [searchsorted_zero, List.range_succ, ref_epoch_seconds, toNat_lit_two]
    rw [abs_of_pos (by norm_num : (0 : ℚ) < 1 / 2)]
    norm_num
  have h2 := (h hfrac).1 4 rfl
  rw [h2]
  norm_num [searchsorted_zero, List.range_succ, ref_epoch_seconds, pyRound, toNat_lit_two]

/-! ### Properties of VDIFFrameSet.fromfile -/

/-- Every frame kept by the collection loop carries the frame number of
the first header read. -/
theorem collect_frame_nr (fn0 : ℕ) (tids : Option (List ℕ)) :
    ∀ stream : List VDIFFrameRec, ∀ f ∈ (collectVDIFFrames fn0 tids stream).1,
      f.frame_nr = fn0 := by
  intro stream
  induction stream with
  | nil => intro f hf; simp [collectVDIFFrames] at hf
  | cons h rest ih =>
    intro f hf
    simp only [collectVDIFFrames] at hf
    by_cases heq : h.frame_nr = fn0
    · rw [if_pos heq] at hf
      split at hf
      · rcases List.mem_cons.mp hf with hfh | hf'
        · rw [hfh]; exact heq
        · exact ih f hf'
      · exact ih f hf
    · rw [if_neg heq] at hf
      simp at hf

/-- C8: VDIFFrameSet.fromfile collects frames whose frame_nr equals that
of the first header read; whenever fewer frames than the requested number
of thread ids were collected, it propagates the EOFError when end of file
stopped the loop and raises the IOError incompleteFrameSet otherwise
(Python 2 exception-scope semantics; see the definition). -/
theorem C8_frameset_error_handling (h0 : VDIFFrameRec) (rest : List VDIFFrameRec)
    (tids : Option (List ℕ)) (sort : Bool) :
    (∀ f ∈ (collectVDIFFrames h0.frame_nr tids (h0 :: rest)).1, f.frame_nr = h0.frame_nr) ∧
    ((collectVDIFFrames h0.frame_nr tids (h0 :: rest)).1.length <
        (match tids with
         | some l => l.length
         | none => min (collectVDIFFrames h0.frame_nr tids (h0 :: rest)).1.length 1) →
      VDIFFrameSet.fromfile (h0 :: rest) tids sort =
        .error (if (collectVDIFFrames h0.frame_nr tids (h0 :: rest)).2 then .eofError
                else .incompleteFrameSet)) := by
  constructor
  · exact fun f hf => collect_frame_nr _ _ _ f hf
  · intro hlt
    simp only [VDIFFrameSet.fromfile]
    rw [if_pos hlt]
    cases hb : (collectVDIFFrames h0.frame_nr tids (h0 :: rest)).2 <;> simp [hb]

/-- Witness for C8: a one-frame stream of thread 5 with threads 1 and 2
requested ends at EOF with too few frames, so the EOFError propagates. -/
theorem C8_frameset_error_handling_witness :
    VDIFFrameSet.fromfile [⟨0, 5⟩] (some [1, 2]) true = .error .eofError := by
  have h := (C8_frameset_error_handling ⟨0, 5⟩ [] (some [1, 2]) true).2 (by decide)
  rw [h]
  decide

/-- C9 counterexample: the claim fails on streams whose frame numbers are
not monotone.  On headers with frame numbers 0, 5, 3, 0 the largest
frame_nr observed while skipping to the wrap is 5, so the claim predicts
6, but get_frame_rate keeps only the last frame_nr before the wrap
(max_frame is overwritten on every iteration of the loop at
vlbi_helpers.py lines 288-291) and returns 3 + 1 = 4. -/
theorem C9_max_frame_counterexample :
    get_frame_rate [⟨0, 10⟩, ⟨5, 10⟩, ⟨3, 10⟩, ⟨0, 11⟩] = .ok (4, false) ∧
    ((([⟨0, 10⟩, ⟨5, 10⟩, ⟨3, 10⟩, ⟨0, 11⟩] : List ScanHeader).map
        (fun h => h.frame_nr)).filter (fun f => f != 0)).foldr max 0 + 1 = 6 ∧
    (4 : ℕ) ≠ 6 := by
  refine ⟨by decide, by decide, by decide⟩

/-- The first scan loop skips the leading frame_nr 0 headers and stops at
the first nonzero one. -/
theorem skipZeroFrames_spec :
    ∀ (zs : List ScanHeader) (z : ScanHeader) (tl : List ScanHeader) (p : ScanHeader),
      z.frame_nr = 0 → (∀ h ∈ zs, h.frame_nr = 0) → p.frame_nr ≠ 0 →
      skipZeroFrames z (zs ++ p :: tl) = .ok (p, tl) := by
  intro zs
  induction zs with
  | nil =>
    intro z tl p hz _ hp
    rw [List.nil_append, skipZeroFrames.eq_def, if_pos hz]
    show skipZeroFrames p tl = PyResult.ok (p, tl)
    rw [skipZeroFrames.eq_def, if_neg hp]
  | cons h t ih =>
    intro z tl p hz hzs hp
    rw [List.cons_append, skipZeroFrames.eq_def, if_pos hz]
    show skipZeroFrames h (t ++ p :: tl) = PyResult.ok (p, tl)
    exact ih h tl p (hzs h (List.mem_cons_self _ _))
      (fun x hx => hzs x (List.mem_cons_of_mem _ hx)) hp

/-- The second scan loop runs through the nonzero frame numbers and stops
at the wrap, returning the frame_nr of the last header before it. -/
theorem scanToWrap_spec :
    ∀ (ps : List ScanHeader) (p : ScanHeader) (tl : List ScanHeader) (w : ScanHeader) (mf : ℕ),
      p.frame_nr ≠ 0 → (∀ h ∈ ps, h.frame_nr ≠ 0) → w.frame_nr = 0 →
      scanToWrap p (ps ++ w :: tl) mf = .ok (w, ((p :: ps).getLastD ⟨0, 0⟩).frame_nr) := by
  intro ps
  induction ps with
  | nil =>
    intro p tl w mf hp _ hw
    rw [List.nil_append, scanToWrap.eq_def, if_pos (Nat.pos_of_ne_zero hp)]
    show scanToWrap w tl p.frame_nr = _
    rw [scanToWrap.eq_def, if_neg (by omega)]
    rfl
  | cons h t ih =>
    intro p tl w mf hp hps hw
    rw [List.cons_append, scanToWrap.eq_def, if_pos (Nat.pos_of_ne_zero hp)]
    show scanToWrap h (t ++ w :: tl) p.frame_nr = _
    exact ih h tl w p.frame_nr (hps h (List.mem_cons_self _ _))
      (fun x hx => hps x (List.mem_cons_of_mem _ hx)) hw

/-- C9 amended: for every stream that opens with frame_nr 0 headers, then
a nonempty run of nonzero frame numbers, then a wrap back to 0,
get_frame_rate returns last_frame + 1, where last_frame is the frame_nr
of the final header before the wrap (equal to the largest observed
frame_nr whenever frame numbers are non-decreasing); when the seconds
field of the wrap header does not exceed that of the first header by
exactly 1 it sets the soft ClockSkew warning flag, and it still returns
the count either way. -/
theorem C9_frame_rate_spec (z : ScanHeader) (zs : List ScanHeader) (p : ScanHeader)
    (ps : List ScanHeader) (w : ScanHeader) (tl : List ScanHeader)
    (hz : z.frame_nr = 0) (hzs : ∀ h ∈ zs, h.frame_nr = 0) (hp : p.frame_nr ≠ 0)
    (hps : ∀ h ∈ ps, h.frame_nr ≠ 0) (hw : w.frame_nr = 0) :
    get_frame_rate (z :: (zs ++ p :: (ps ++ w :: tl))) =
      .ok (((p :: ps).getLastD ⟨0, 0⟩).frame_nr + 1,
        decide (w.seconds ≠ z.seconds + 1)) := by
  have h1 := skipZeroFrames_spec zs z (ps ++ w :: tl) p hz hzs hp
  have h2 := scanToWrap_spec ps p tl w 0 hp hps hw
  simp [get_frame_rate, h1, h2, hz]

/-- Witness for C9 on the monotone stream 0, 2, 5, 0 with seconds
advancing by exactly 1: rate 6, no warning. -/
theorem C9_frame_rate_spec_witness :
    get_frame_rate [⟨0, 10⟩, ⟨2, 10⟩, ⟨5, 10⟩, ⟨0, 11⟩] = .ok (6, false) := by
  have h := C9_frame_rate_spec ⟨0, 10⟩ [] ⟨2, 10⟩ [⟨5, 10⟩] ⟨0, 11⟩ []
    (by decide) (by simp) (by decide) (by decide) (by decide)
  exact h.trans (by decide)
